import Mathlib

/-!
Verification of the IGitt commit-reference and diff-analysis engine.

The diff-stat aggregation is translated from
`IGitt/GitLab/GitLabMergeRequest.py` (property `diffstat`).  The hunk
indexer (`get_diff_index`), the unified-diff builder and the commit
reference recognizer are only exercised by the test suite in this tree,
so they are modelled from the specification; each such definition says
so in its doc comment.

Strings are embedded as `List Char`; a raised Python exception is
embedded as `Option.none`.
-/

set_option autoImplicit false

namespace Igitt

/-- Characters accepted by the character class of the hunk-header
regular expression used in `GitLabMergeRequest.diffstat`,
`[0-9+,-]`. -/
def isRangeChar (c : Char) : Bool :=
  c.isDigit || c == '+' || c == ',' || c == '-'

/-- Length of the match of the pattern in
`re.compile(r'@@ [0-9+,-]+ [0-9+,-]+ @@')` when it matches at the head
of `cs`; `none` when it does not match there.  Because the character
class excludes the space and `@`, the greedy quantifiers admit no
backtracking, so maximal munch is exact. -/
def reMatchLen (cs : List Char) : Option Nat :=
  match cs with
  | '@' :: '@' :: ' ' :: rest =>
    let r1 := rest.takeWhile isRangeChar
    if r1 = [] then none else
    match rest.dropWhile isRangeChar with
    | ' ' :: rest2 =>
      let r2 := rest2.takeWhile isRangeChar
      if r2 = [] then none else
      match rest2.dropWhile isRangeChar with
      | ' ' :: '@' :: '@' :: _ => some (3 + r1.length + 1 + r2.length + 3)
      | _ => none
    | _ => none
  | _ => none

/-- `expr.search(diff).end()`: the end index of the leftmost match of
the hunk-header pattern, `none` when the pattern does not occur
(in which case the Python code raises `AttributeError`). -/
def reSearchEnd : List Char → Option Nat
  | [] => none
  | c :: cs =>
    match reMatchLen (c :: cs) with
    | some len => some len
    | none => (reSearchEnd cs).map (· + 1)

/-- Python `str.split('\n')`: always returns at least one segment and
keeps empty segments. -/
def splitOnNl : List Char → List (List Char)
  | [] => [[]]
  | '\n' :: rest => [] :: splitOnNl rest
  | c :: rest =>
    match splitOnNl rest with
    | [] => [[c]]
    | l :: ls => (c :: l) :: ls

/-- The `results` contributed by one `change['diff']` fragment:
`diff[start_index:].split('\n')` where `start_index` is the end of the
first hunk-header match; `none` models the `AttributeError` raised when
`expr.search(diff)` is `None`. -/
def diffstatLines (diff : List Char) : Option (List (List Char)) :=
  (reSearchEnd diff).map (fun e => splitOnNl (diff.drop e))

/-- The concatenated `results` list accumulated over all changes, in
order; `none` as soon as one fragment has no hunk header. -/
def gatherResults : List (List Char) → Option (List (List Char))
  | [] => some []
  | d :: ds =>
    match diffstatLines d with
    | none => none
    | some ls => (gatherResults ds).map (fun rest => ls ++ rest)

/-- `len([line for line in results if line.startswith(p)])`. -/
def countLeading (p : Char) (ls : List (List Char)) : Nat :=
  (ls.filter (fun l => l.head? = some p)).length

/-- `GitLabMergeRequest.diffstat`, translated from
`IGitt/GitLab/GitLabMergeRequest.py`: per change fragment, drop the
text up to the end of the first hunk-header match, split the remainder
on newlines, then count the lines starting with `+` and with `-`. -/
def diffstat (changes : List (List Char)) : Option (Nat × Nat) :=
  (gatherResults changes).map
    (fun rs => (countLeading '+' rs, countLeading '-' rs))

/-! ### Hunk headers and the hunk indexer -/

/-- Numeric value of a list of decimal digit characters. -/
def natOfDigits (ds : List Char) : Nat :=
  ds.foldl (fun a c => a * 10 + (c.toNat - 48)) 0

/-- Read a nonempty run of decimal digits from the head of `cs`,
returning its value and the rest. -/
def readNat (cs : List Char) : Option (Nat × List Char) :=
  let ds := cs.takeWhile Char.isDigit
  if ds = [] then none
  else some (natOfDigits ds, cs.dropWhile Char.isDigit)

/-- Read the optional `,<len>` part of a hunk range; per the GNU
unified-diff grammar the length defaults to 1 when omitted. -/
def readOptLen (cs : List Char) : Option (Nat × List Char) :=
  match cs with
  | ',' :: rest => readNat rest
  | cs => some (1, cs)

/-- Parse a hunk-header line `@@ -a,b +c,d @@` (with `,b` and `,d`
optional) into `(oldStart, oldLen, newStart, newLen)`; trailing text
after the closing `@@` is tolerated. -/
def parseHunkHeader (l : List Char) : Option (Nat × Nat × Nat × Nat) :=
  match l with
  | '@' :: '@' :: ' ' :: '-' :: rest =>
    match readNat rest with
    | none => none
    | some (a, r1) =>
      match readOptLen r1 with
      | none => none
      | some (b, r2) =>
        match r2 with
        | ' ' :: '+' :: r3 =>
          match readNat r3 with
          | none => none
          | some (c, r4) =>
            match readOptLen r4 with
            | none => none
            | some (d, r5) =>
              match r5 with
              | ' ' :: '@' :: '@' :: _ => some (a, b, c, d)
              | _ => none
        | _ => none
  | _ => none

/-- Python `str.splitlines` restricted to `\n` separators: the trailing
empty segment produced by a final newline is dropped. -/
def splitLines : List Char → List (List Char)
  | [] => []
  | '\n' :: rest => [] :: splitLines rest
  | c :: rest =>
    match splitLines rest with
    | [] => [[c]]
    | l :: ls => (c :: l) :: ls

/-- Modelled from the spec: `get_diff_index` of
`IGitt/GitHub/GitHubCommit.py` is not under `src/` (only its test is).
Walk of the patch lines, spec 4.1: before the first hunk header nothing
is counted; a hunk header resets the new-file counter to
`newStart - 1`; every subsequent body line advances the body offset,
context and `+` lines advance the new-file counter, `-` lines do not;
the first non-`-` body line whose new-file counter equals `n` yields
its body offset (the hunk header itself sits at offset 0). -/
def locateGo (n : Nat) : List (List Char) → Bool → Nat → Nat → Option Nat
  | [], _, _, _ => none
  | l :: ls, started, off, cnt =>
    match parseHunkHeader l with
    | some x =>
      if started then locateGo n ls true (off + 1) (x.2.2.1 - 1)
      else locateGo n ls true 0 (x.2.2.1 - 1)
    | none =>
      if started then
        if l.head? = some '-' then locateGo n ls true (off + 1) cnt
        else if cnt + 1 = n then some (off + 1)
        else locateGo n ls true (off + 1) (cnt + 1)
      else locateGo n ls false off cnt

/-- Modelled from the spec: `get_diff_index(patch, line_nr)` — the
`HunkIndexer.locate` contract of spec 4.1; `none` is `NotFound`. -/
def get_diff_index (patch : List Char) (n : Nat) : Option Nat :=
  locateGo n (splitLines patch) false 0 0

/-- One walked body line of a patch: its body offset, the new-file
counter after the line, and whether it is a `-` (deleted) line. -/
structure TraceEntry where
  off : Nat
  cnt : Nat
  minus : Bool
  deriving DecidableEq, Repr

/-- The walked body lines of a patch, with the same state bookkeeping
as `locateGo`. -/
def traceGo : List (List Char) → Bool → Nat → Nat → List TraceEntry
  | [], _, _, _ => []
  | l :: ls, started, off, cnt =>
    match parseHunkHeader l with
    | some x =>
      if started then traceGo ls true (off + 1) (x.2.2.1 - 1)
      else traceGo ls true 0 (x.2.2.1 - 1)
    | none =>
      if started then
        if l.head? = some '-' then
          ⟨off + 1, cnt, true⟩ :: traceGo ls true (off + 1) cnt
        else ⟨off + 1, cnt + 1, false⟩ :: traceGo ls true (off + 1) (cnt + 1)
      else traceGo ls false off cnt

/-- The body-line trace of a patch. -/
def patchTrace (patch : List Char) : List TraceEntry :=
  traceGo (splitLines patch) false 0 0

/-- Declarative reading of the claim: the body offset of the first
non-deleted body line whose new-file counter is `n`. -/
def findOffset (n : Nat) : List TraceEntry → Option Nat
  | [] => none
  | e :: es => if e.minus = false ∧ e.cnt = n then some e.off else findOffset n es

/-- The `(newStart, newLen)` ranges of the hunk headers among `ls`. -/
def rangesOf (ls : List (List Char)) : List (Nat × Nat) :=
  ls.filterMap (fun l => (parseHunkHeader l).map (fun x => (x.2.2.1, x.2.2.2)))

/-- The new-file ranges declared by the patch's hunk headers. -/
def hunkRanges (patch : List Char) : List (Nat × Nat) :=
  rangesOf (splitLines patch)

/-- `true` when the pending count of body lines in the current hunk is
absent or exhausted. -/
def remOk (rem : Option Nat) : Bool :=
  match rem with
  | none => true
  | some 0 => true
  | some (_ + 1) => false

/-- Structural well-formedness walk: each hunk header is reached only
with the previous hunk exhausted, declares `newStart ≥ 1` unless its
new length is 0, and is followed by exactly `newLen` non-`-` body
lines before the next header or the end. -/
def wfGo : List (List Char) → Option Nat → Bool
  | [], rem => remOk rem
  | l :: ls, rem =>
    match parseHunkHeader l with
    | some x =>
      remOk rem && (decide (1 ≤ x.2.2.1) || decide (x.2.2.2 = 0)) &&
        wfGo ls (some x.2.2.2)
    | none =>
      match rem with
      | none => wfGo ls none
      | some k =>
        if l.head? = some '-' then wfGo ls (some k)
        else
          match k with
          | 0 => false
          | k' + 1 => wfGo ls (some k')

/-- A patch is well formed when every hunk's declared new-file length
matches its body. -/
def wellFormed (patch : List Char) : Bool :=
  wfGo (splitLines patch) none

/-! ### Unified-diff builder -/

/-- The synthesized `--- a/<path>` header line. -/
def headerLine1 (p : List Char) : List Char :=
  '-' :: '-' :: '-' :: ' ' :: 'a' :: '/' :: p

/-- The synthesized `+++ b/<path>` header line. -/
def headerLine2 (p : List Char) : List Char :=
  '+' :: '+' :: '+' :: ' ' :: 'b' :: '/' :: p

/-- The two synthesized header lines, newline-terminated. -/
def headerBlock (p : List Char) : List Char :=
  headerLine1 p ++ '\n' :: headerLine2 p ++ ['\n']

/-- A fragment with the synthesized headers prepended. -/
def withHeaders (p f : List Char) : List Char :=
  headerBlock p ++ f

/-- The first line of a fragment. -/
def firstLine (f : List Char) : List Char :=
  f.takeWhile (fun c => c != '\n')

/-- Whether a fragment starts with a recognizable hunk header. -/
def hunkHeaded (f : List Char) : Bool :=
  (parseHunkHeader (firstLine f)).isSome

/-- Modelled from the spec: the `UnifiedDiffBuilder.build` operation of
spec 4.3 (realized by `unified_diff`/`get_patch_for_file` of the
Commit adapters, which are not under `src/`, only their tests): a
fragment that already starts with a hunk header gets `--- a/<path>` and
`+++ b/<path>` lines prepended; anything else — in particular a
fragment already carrying headers — passes through unchanged. -/
def build (p f : List Char) : List Char :=
  if hunkHeaded f then withHeaders p f else f

/-- Drop the first line of a fragment, including its newline. -/
def dropLine (xs : List Char) : List Char :=
  (xs.dropWhile (fun c => c != '\n')).drop 1

/-- Strip the two leading header lines of a built diff. -/
def stripTwoLines (xs : List Char) : List Char :=
  dropLine (dropLine xs)

/-! ### Commit reference recognizer -/

/-- A repository scope: owner and repository name. -/
structure RepoScope where
  owner : List Char
  repo : List Char
  deriving DecidableEq, Repr

/-- The verb attached to a recognized reference. -/
inductive Verb where
  | MENTION
  | CLOSE
  | FIX
  | RESOLVE
  deriving DecidableEq, Repr

/-- A verb-keyword family of spec 4.4. -/
inductive VerbFamily where
  | close
  | fix
  | resolve
  deriving DecidableEq, Repr

/-- The `Verb` contributed by a governing verb family. -/
def VerbFamily.toVerb : VerbFamily → Verb
  | .close => .CLOSE
  | .fix => .FIX
  | .resolve => .RESOLVE

/-- A single recognized commit reference. -/
structure CommitReference where
  verb : Verb
  scope : RepoScope
  number : Nat
  deriving DecidableEq, Repr

/-- Whitespace characters separating words of a commit message. -/
def isWsChar (c : Char) : Bool :=
  c == ' ' || c == '\n' || c == '\t' || c == '\r'

/-- Whitespace word splitting (accumulator holds the current word
reversed; empty words are dropped). -/
def wordsAux : List Char → List Char → List (List Char)
  | [], acc => if acc = [] then [] else [acc.reverse]
  | c :: cs, acc =>
    if isWsChar c then
      if acc = [] then wordsAux cs [] else acc.reverse :: wordsAux cs []
    else wordsAux cs (c :: acc)

/-- The whitespace-separated words of a message. -/
def wordsOf (msg : List Char) : List (List Char) :=
  wordsAux msg []

/-- Lower-cased copy of a word, for case-insensitive verb matching. -/
def lowerWord (w : List Char) : List Char :=
  w.map Char.toLower

/-- Modelled from the spec: the verb keywords of spec 4.4 with their
accepted inflections, matched case-insensitively. -/
def verbOf (w : List Char) : Option VerbFamily :=
  let l := lowerWord w
  if l = ('c' :: 'l' :: 'o' :: 's' :: 'e' :: []) ∨
     l = ('c' :: 'l' :: 'o' :: 's' :: 'e' :: 's' :: []) ∨
     l = ('c' :: 'l' :: 'o' :: 's' :: 'e' :: 'd' :: []) then some .close
  else if l = ('f' :: 'i' :: 'x' :: []) ∨
     l = ('f' :: 'i' :: 'x' :: 'e' :: 's' :: []) ∨
     l = ('f' :: 'i' :: 'x' :: 'e' :: 'd' :: []) then some .fix
  else if l = ('r' :: 'e' :: 's' :: 'o' :: 'l' :: 'v' :: 'e' :: []) ∨
     l = ('r' :: 'e' :: 's' :: 'o' :: 'l' :: 'v' :: 'e' :: 's' :: []) ∨
     l = ('r' :: 'e' :: 's' :: 'o' :: 'l' :: 'v' :: 'e' :: 'd' :: []) then
    some .resolve
  else none

/-- Split the part of a word before `#` as `<owner>/<repo>` with both
sides nonempty and a single `/`; `none` on anything else. -/
def splitOwnerRepo (pre : List Char) : Option (List Char × List Char) :=
  let o := pre.takeWhile (fun c => c != '/')
  match pre.dropWhile (fun c => c != '/') with
  | '/' :: r =>
    if o = [] ∨ r = [] ∨ r.contains '/' then none else some (o, r)
  | _ => none

/-- Modelled from the spec: reference-token recognition of spec 4.4 —
`#<number>` resolves to the own scope, `<owner>/<repo>#<number>` to
that cross-repository scope; a `#` not followed by digits, or a
malformed owner/repo part, is not a reference. -/
def refOf (own : RepoScope) (w : List Char) : Option (RepoScope × Nat) :=
  let pre := w.takeWhile (fun c => c != '#')
  match w.dropWhile (fun c => c != '#') with
  | '#' :: post =>
    let ds := post.takeWhile Char.isDigit
    if ds = [] then none
    else
      if pre = [] then some (own, natOfDigits ds)
      else
        match splitOwnerRepo pre with
        | some x => some (⟨x.1, x.2⟩, natOfDigits ds)
        | none => none
  | _ => none

/-- Modelled from the spec: the word walk of spec 4.4.  A verb keyword
becomes the governing family for the reference tokens that follow it,
up to the next verb keyword or the end of the message; every reference
token contributes a `MENTION` reference and, when governed, a
reference carrying the governing family's verb. -/
def refsOfTokens (own : RepoScope) :
    List (List Char) → Option VerbFamily → List CommitReference
  | [], _ => []
  | w :: ws, gov =>
    match verbOf w with
    | some fam => refsOfTokens own ws (some fam)
    | none =>
      match refOf own w with
      | some sn =>
        ⟨.MENTION, sn.1, sn.2⟩ ::
          ((match gov with
            | some fam => [⟨fam.toVerb, sn.1, sn.2⟩]
            | none => []) ++ refsOfTokens own ws gov)
      | none => refsOfTokens own ws gov

/-- Modelled from the spec: `CommitReferenceParser.parse` of spec 4.4,
the ordered reference sequence of a commit message. -/
def parseRefs (msg : List Char) (own : RepoScope) : List CommitReference :=
  refsOfTokens own (wordsOf msg) none

/-- The numbers of the parsed references carrying verb `v` that point
at the own repository. -/
def issuesOf (v : Verb) (msg : List Char) (own : RepoScope) : Finset Nat :=
  (((parseRefs msg own).filter
      (fun r => r.verb = v ∧ r.scope = own)).map
    (fun r => r.number)).toFinset

/-- `mentioned_issues`. -/
def mentionedIssues (msg : List Char) (own : RepoScope) : Finset Nat :=
  issuesOf .MENTION msg own

/-- `closes_issues`. -/
def closesIssues (msg : List Char) (own : RepoScope) : Finset Nat :=
  issuesOf .CLOSE msg own

/-- `will_fix_issues`. -/
def willFixIssues (msg : List Char) (own : RepoScope) : Finset Nat :=
  issuesOf .FIX msg own

/-- `will_resolve_issues`. -/
def willResolveIssues (msg : List Char) (own : RepoScope) : Finset Nat :=
  issuesOf .RESOLVE msg own

/-- `will_close_issues`: the close references flagged pending exactly
when the commit is not yet on the default branch. -/
def willCloseIssues (pending : Bool) (msg : List Char) (own : RepoScope) :
    Finset Nat :=
  if pending then closesIssues msg own else ∅

/-! ### Concrete sample inputs from the test suite -/

/-- The patch of `test_get_diff_index` in
`tests/GitHub/test_github_commit.py`. -/
def samplePatch : List Char :=
  ("---/version/a\n+++/version/b\n@@ -1,2 +1,4 @@\n # test\n+\n-a test repo\n+something new\n something old\n").data

/-- The commit message of the reference-parsing scenario of spec 8. -/
def sampleMsg : List Char :=
  ("Fixes #98, closes #104 and resolves gitmate-test-user/test#1").data

/-- The own scope `gitmate-test-user/test`. -/
def sampleScope : RepoScope :=
  ⟨("gitmate-test-user").data, ("test").data⟩

/-- A message whose `#` tokens are all malformed. -/
def sampleMalformed : List Char :=
  ("closes # and fixes #abc").data

/-- A backend stub for a binary file: no hunk header at all. -/
def sampleBinaryStub : List Char :=
  ("Binary files a/img and b/img differ").data

/-! ## Theorems -/

/-! ### Diff-stat aggregation (`GitLabMergeRequest.diffstat`) -/

theorem gatherResults_append (A B : List (List Char))
    (ra rb : List (List Char)) (hA : gatherResults A = some ra)
    (hB : gatherResults B = some rb) :
    gatherResults (A ++ B) = some (ra ++ rb) := by
  induction A generalizing ra with
  | nil =>
    simp only [gatherResults] at hA
    cases hA
    simpa using hB
  | cons d ds ih =>
    simp only [gatherResults, List.cons_append] at hA ⊢
    cases h : diffstatLines d with
    | none => simp [h] at hA
    | some ls =>
      simp only [h] at hA ⊢
      cases h2 : gatherResults ds with
      | none => simp [h2] at hA
      | some rs =>
        simp only [h2, Option.map_some', Option.some.injEq] at hA
        simp only [List.append_eq]
        rw [ih rs h2]
        simp [← hA, List.append_assoc]

theorem countLeading_append (p : Char) (a b : List (List Char)) :
    countLeading p (a ++ b) = countLeading p a + countLeading p b := by
  simp [countLeading, List.filter_append]

/-- C6: the diff-stat aggregation is linear: aggregating a
concatenation of change collections gives the pointwise sum of the two
aggregates (whenever neither side raises). -/
theorem C6_diffstat_additive (A B : List (List Char)) (a1 d1 a2 d2 : Nat)
    (hA : diffstat A = some (a1, d1)) (hB : diffstat B = some (a2, d2)) :
    diffstat (A ++ B) = some (a1 + a2, d1 + d2) := by
  simp only [diffstat] at hA hB
  obtain ⟨ra, hra, hca⟩ := Option.map_eq_some'.mp hA
  obtain ⟨rb, hrb, hcb⟩ := Option.map_eq_some'.mp hB
  have h := gatherResults_append A B ra rb hra hrb
  simp only [diffstat, h, Option.map_some', Option.some.injEq]
  obtain ⟨hca1, hca2⟩ := Prod.mk.injEq .. ▸ hca
  obtain ⟨hcb1, hcb2⟩ := Prod.mk.injEq .. ▸ hcb
  simp [countLeading_append, ← hca1, ← hca2, ← hcb1, ← hcb2]

theorem C6_diffstat_additive_witness :
    diffstat [("@@ -0,0 +1 @@\n+x").data] = some (1, 0) ∧
    diffstat [("@@ -1 +0,0 @@\n-y").data] = some (0, 1) ∧
    diffstat ([("@@ -0,0 +1 @@\n+x").data] ++ [("@@ -1 +0,0 @@\n-y").data]) =
      some (1, 1) :=
  ⟨by decide, by decide,
    C6_diffstat_additive _ _ 1 0 0 1 (by decide) (by decide)⟩

/-- C10: the empty change list yields `(0, 0)`; per fragment, exactly
the text up to the end of the first hunk-header match is discarded and
every later line starting with `+` (resp. `-`) is counted, including a
`+++ b/y` or `--- a/y` header line occurring after the first hunk
header. -/
theorem C10_diffstat_counts (f : List Char) (e : Nat)
    (he : reSearchEnd f = some e) :
    diffstat [] = some (0, 0) ∧
    diffstat [f] = some (countLeading '+' (splitOnNl (f.drop e)),
      countLeading '-' (splitOnNl (f.drop e))) ∧
    diffstat [("@@ -1,1 +1,1 @@\n--- a/y\n+++ b/y\n+z").data] =
      some (2, 1) := by
  refine ⟨by decide, ?_, by decide⟩
  simp [diffstat, gatherResults, diffstatLines, he]

theorem C10_diffstat_counts_witness :
    reSearchEnd (("@@ -0,0 +1 @@\n+x").data) = some 13 ∧
    (diffstat [] = some (0, 0) ∧
      diffstat [("@@ -0,0 +1 @@\n+x").data] =
        some (countLeading '+'
            (splitOnNl ((("@@ -0,0 +1 @@\n+x").data).drop 13)),
          countLeading '-'
            (splitOnNl ((("@@ -0,0 +1 @@\n+x").data).drop 13))) ∧
      diffstat [("@@ -1,1 +1,1 @@\n--- a/y\n+++ b/y\n+z").data] =
        some (2, 1)) :=
  ⟨by decide, C10_diffstat_counts _ 13 (by decide)⟩

theorem reMatchLen_not_at (c : Char) (cs : List Char) (h : c ≠ '@') :
    reMatchLen (c :: cs) = none := by
  unfold reMatchLen
  split
  · next heq => exact absurd (List.cons.injEq .. ▸ heq).1 h
  · rfl

theorem reSearchEnd_append_no_at (xs ys : List Char)
    (h : ∀ c ∈ xs, c ≠ '@') :
    reSearchEnd (xs ++ ys) = (reSearchEnd ys).map (· + xs.length) := by
  induction xs with
  | nil => cases hr : reSearchEnd ys <;> simp [hr]
  | cons c xs ih =>
    have hc : c ≠ '@' := h c (List.mem_cons_self c xs)
    have hrest : ∀ a ∈ xs, a ≠ '@' :=
      fun a ha => h a (List.mem_cons_of_mem c ha)
    simp only [List.cons_append, reSearchEnd, List.append_eq]
    rw [reMatchLen_not_at c (xs ++ ys) hc]
    simp only [ih hrest]
    cases hr : reSearchEnd ys with
    | none => simp
    | some v => simp [Nat.add_assoc]

theorem drop_append_length (a b : List Char) (n : Nat) :
    (a ++ b).drop (a.length + n) = b.drop n := by
  induction a with
  | nil => simp
  | cons c a ih => simp [Nat.succ_add, ih]

theorem mem_headerBlock (c : Char) (p : List Char)
    (hc : c ∈ headerBlock p) :
    c ∈ p ∨ c ∈ ('-' :: '-' :: '-' :: ' ' :: 'a' :: '/' :: '\n' ::
      '+' :: '+' :: '+' :: ' ' :: 'b' :: '/' :: '\n' :: []) := by
  simp only [headerBlock, headerLine1, headerLine2, List.mem_append,
    List.mem_cons, List.mem_singleton, List.not_mem_nil, or_false] at hc ⊢
  tauto

theorem diffstatLines_withHeaders (p f : List Char)
    (hp : ∀ c ∈ p, c ≠ '@') :
    diffstatLines (withHeaders p f) = diffstatLines f := by
  have hhdr : ∀ c ∈ headerBlock p, c ≠ '@' := by
    intro c hc
    rcases mem_headerBlock c p hc with h | h
    · exact hp c h
    · intro hEq
      subst hEq
      revert h
      decide
  simp only [diffstatLines, withHeaders,
    reSearchEnd_append_no_at (headerBlock p) f hhdr]
  cases hr : reSearchEnd f with
  | none => rfl
  | some e =>
    simp only [Option.map_some', Option.some.injEq]
    rw [Nat.add_comm e (headerBlock p).length, drop_append_length]

/-- C3: the diff-stat aggregation never counts the `---`/`+++`
file-header lines of a per-file fragment: prepending the synthesized
header block to a fragment leaves the aggregate unchanged, and the
concrete patch of spec 8 yields `(1, 0)`. -/
theorem C3_diffstat_headers_not_counted (p f : List Char)
    (rest : List (List Char)) (hp : ∀ c ∈ p, c ≠ '@') :
    diffstat (withHeaders p f :: rest) = diffstat (f :: rest) ∧
    diffstat [("--- a/x\n+++ b/x\n@@ -0,0 +1 @@\n+line").data] =
      some (1, 0) := by
  refine ⟨?_, by decide⟩
  simp [diffstat, gatherResults, diffstatLines_withHeaders p f hp]

theorem C3_diffstat_headers_not_counted_witness :
    (∀ c ∈ ("x").data, c ≠ '@') ∧
    (diffstat [withHeaders (("x").data) (("@@ -0,0 +1 @@\n+line").data)] =
        diffstat [("@@ -0,0 +1 @@\n+line").data] ∧
      diffstat [("--- a/x\n+++ b/x\n@@ -0,0 +1 @@\n+line").data] =
        some (1, 0)) :=
  ⟨by decide,
    C3_diffstat_headers_not_counted (("x").data)
      (("@@ -0,0 +1 @@\n+line").data) [] (by decide)⟩

/-- C4 counterexample: on a fragment with no hunk header the code does
not contribute a zero count — `expr.search(diff)` is `None` and
`.end()` raises (embedded as `none`), so the aggregate of a singleton
empty diff is not `(0, 0)`. -/
theorem C4_counterexample :
    diffstat [[]] = none ∧ diffstat [[]] ≠ some (0, 0) := by decide

theorem locateGo_none_of_no_header (n : Nat) (ls : List (List Char))
    (off cnt : Nat) (h : ∀ l ∈ ls, parseHunkHeader l = none) :
    locateGo n ls false off cnt = none := by
  induction ls with
  | nil => rfl
  | cons l ls ih =>
    simp only [locateGo, h l (List.mem_cons_self l ls)]
    exact ih fun x hx => h x (List.mem_cons_of_mem l hx)

/-- C4 amended: on a fragment with no recognizable hunk header the
hunk indexer signals `NotFound`, but `GitLabMergeRequest.diffstat`
raises (`AttributeError`, embedded as `none`) instead of contributing
a zero count. -/
theorem C4_missing_header (patch : List Char) (n : Nat)
    (h : ∀ l ∈ splitLines patch, parseHunkHeader l = none) :
    get_diff_index patch n = none ∧ diffstat [[]] = none :=
  ⟨locateGo_none_of_no_header n (splitLines patch) 0 0 h, by decide⟩

theorem C4_missing_header_witness :
    (∀ l ∈ splitLines sampleBinaryStub, parseHunkHeader l = none) ∧
    (get_diff_index sampleBinaryStub 1 = none ∧ diffstat [[]] = none) :=
  ⟨by decide, C4_missing_header sampleBinaryStub 1 (by decide)⟩

/-! ### Unified-diff builder -/

theorem parseHunkHeader_cons_not_at (c : Char) (xs : List Char)
    (h : c ≠ '@') : parseHunkHeader (c :: xs) = none := by
  unfold parseHunkHeader
  split
  · next heq => exact absurd (List.cons.injEq .. ▸ heq).1 h
  · rfl

theorem firstLine_cons (c : Char) (xs : List Char) (h : (c != '\n') = true) :
    firstLine (c :: xs) = c :: firstLine xs := by
  simp [firstLine, List.takeWhile_cons, h]

theorem hunkHeaded_withHeaders (p f : List Char) :
    hunkHeaded (withHeaders p f) = false := by
  have : firstLine (withHeaders p f) =
      '-' :: firstLine (('-' :: '-' :: ' ' :: 'a' :: '/' :: p) ++
        '\n' :: headerLine2 p ++ ['\n'] ++ f) := by
    simp only [withHeaders, headerBlock, headerLine1, List.cons_append,
      List.append_assoc]
    exact firstLine_cons '-' _ (by decide)
  simp [hunkHeaded, this, parseHunkHeader_cons_not_at '-' _ (by decide)]

/-- C7: the unified-diff builder is idempotent —
`build p (build p f) = build p f` for every path and fragment — and a
fragment already starting with `---` headers passes through
unchanged. -/
theorem C7_build_idempotent (p f g : List Char)
    (hg : g.take 3 = ('-' :: '-' :: '-' :: [])) :
    build p (build p f) = build p f ∧ build p g = g := by
  have hpass : build p g = g := by
    cases g with
    | nil => simp at hg
    | cons c rest =>
      simp only [List.take_succ_cons, List.cons.injEq] at hg
      obtain ⟨rfl, -⟩ := hg
      simp [build, hunkHeaded, firstLine_cons '-' rest (by decide),
        parseHunkHeader_cons_not_at '-' _ (by decide)]
  refine ⟨?_, hpass⟩
  by_cases hb : hunkHeaded f
  · have h1 : build p f = withHeaders p f := by simp [build, hb]
    rw [h1]
    simp [build, hunkHeaded_withHeaders]
  · simp [build, hb]

theorem C7_build_idempotent_witness :
    (("--- a/x\n+++ b/x\n@@ -1 +1 @@\n x").data).take 3 =
      ('-' :: '-' :: '-' :: []) ∧
    (build (("x").data) (build (("x").data)
        (("@@ -1 +1 @@\n x").data)) =
      build (("x").data) (("@@ -1 +1 @@\n x").data) ∧
    build (("x").data) (("--- a/x\n+++ b/x\n@@ -1 +1 @@\n x").data) =
      ("--- a/x\n+++ b/x\n@@ -1 +1 @@\n x").data) :=
  ⟨by decide,
    C7_build_idempotent (("x").data) (("@@ -1 +1 @@\n x").data) _
      (by decide)⟩

theorem dropLine_cons (c : Char) (xs : List Char) (h : (c != '\n') = true) :
    dropLine (c :: xs) = dropLine xs := by
  simp [dropLine, List.dropWhile_cons, h]

theorem dropLine_newline (xs : List Char) : dropLine ('\n' :: xs) = xs := by
  simp [dropLine, List.dropWhile_cons]

theorem dropLine_append (a b : List Char) (h : ∀ c ∈ a, c ≠ '\n') :
    dropLine (a ++ '\n' :: b) = b := by
  induction a with
  | nil => simp [dropLine_newline]
  | cons c a ih =>
    have hc : (c != '\n') = true := by
      simpa using h c (List.mem_cons_self c a)
    rw [List.cons_append, dropLine_cons c _ hc]
    exact ih fun x hx => h x (List.mem_cons_of_mem c hx)

/-- C8: round trip — building a header-bearing diff from a bare hunk
fragment and then stripping the two synthesized header lines
reproduces the fragment exactly. -/
theorem C8_build_round_trip (p f : List Char)
    (hf : hunkHeaded f = true) (hp : ∀ c ∈ p, c ≠ '\n') :
    stripTwoLines (build p f) = f := by
  have h1 : ∀ c ∈ headerLine1 p, c ≠ '\n' := by
    intro c hc
    simp only [headerLine1, List.mem_cons] at hc
    rcases hc with rfl | rfl | rfl | rfl | rfl | rfl | hm
    · decide
    · decide
    · decide
    · decide
    · decide
    · decide
    · exact hp c hm
  have h2 : ∀ c ∈ headerLine2 p, c ≠ '\n' := by
    intro c hc
    simp only [headerLine2, List.mem_cons] at hc
    rcases hc with rfl | rfl | rfl | rfl | rfl | rfl | hm
    · decide
    · decide
    · decide
    · decide
    · decide
    · decide
    · exact hp c hm
  have hb : build p f = headerLine1 p ++ '\n' :: (headerLine2 p ++ '\n' :: f) := by
    simp [build, hf, withHeaders, headerBlock, List.append_assoc]
  rw [hb, stripTwoLines, dropLine_append _ _ h1, dropLine_append _ _ h2]

theorem C8_build_round_trip_witness :
    hunkHeaded (("@@ -1,2 +1,4 @@\n x\n+y").data) = true ∧
    (∀ c ∈ ("x.md").data, c ≠ '\n') ∧
    stripTwoLines (build (("x.md").data) (("@@ -1,2 +1,4 @@\n x\n+y").data)) =
      ("@@ -1,2 +1,4 @@\n x\n+y").data :=
  ⟨by decide, by decide,
    C8_build_round_trip (("x.md").data) (("@@ -1,2 +1,4 @@\n x\n+y").data)
      (by decide) (by decide)⟩

/-! ### Hunk indexer -/

theorem locateGo_eq_findOffset (n : Nat) (ls : List (List Char))
    (started : Bool) (off cnt : Nat) :
    locateGo n ls started off cnt =
      findOffset n (traceGo ls started off cnt) := by
  induction ls generalizing started off cnt with
  | nil => rfl
  | cons l ls ih =>
    simp only [locateGo, traceGo]
    cases hh : parseHunkHeader l with
    | some x => cases started <;> simp [ih]
    | none =>
      cases started with
      | false => simp [ih]
      | true =>
        by_cases hm : l.head? = some '-'
        · simp [hm, findOffset, ih]
        · by_cases hc : cnt + 1 = n
          · simp [hm, hc, findOffset]
          · simp [hm, hc, findOffset, ih]

theorem findOffset_eq_none (n : Nat) (t : List TraceEntry)
    (h : ∀ e ∈ t, e.minus = false → e.cnt ≠ n) : findOffset n t = none := by
  induction t with
  | nil => rfl
  | cons e es ih =>
    have he := h e (List.mem_cons_self e es)
    simp only [findOffset]
    rw [if_neg (by intro hx; exact he hx.1 hx.2)]
    exact ih fun x hx => h x (List.mem_cons_of_mem e hx)

theorem rangesOf_cons_some (l : List Char) (ls : List (List Char))
    (x : Nat × Nat × Nat × Nat) (hh : parseHunkHeader l = some x) :
    rangesOf (l :: ls) = (x.2.2.1, x.2.2.2) :: rangesOf ls := by
  simp [rangesOf, List.filterMap_cons, hh]

theorem rangesOf_cons_none (l : List Char) (ls : List (List Char))
    (hh : parseHunkHeader l = none) :
    rangesOf (l :: ls) = rangesOf ls := by
  simp [rangesOf, List.filterMap_cons, hh]

theorem trace_in_ranges_started (ls : List (List Char)) :
    ∀ (off cnt k : Nat), wfGo ls (some k) = true →
      ∀ e ∈ traceGo ls true off cnt, e.minus = false →
        (cnt < e.cnt ∧ e.cnt ≤ cnt + k) ∨
          ∃ r ∈ rangesOf ls, r.1 ≤ e.cnt ∧ e.cnt < r.1 + r.2 := by
  induction ls with
  | nil => intro off cnt k _ e he; simp [traceGo] at he
  | cons l ls ih =>
    intro off cnt k hwf e he hm
    cases hh : parseHunkHeader l with
    | some x =>
      simp only [wfGo, hh, Bool.and_eq_true] at hwf
      obtain ⟨⟨hrem, hcd⟩, hrest⟩ := hwf
      have hk : k = 0 := by
        cases k with
        | zero => rfl
        | succ m => simp [remOk] at hrem
      subst hk
      have hcd' : 1 ≤ x.2.2.1 ∨ x.2.2.2 = 0 := by
        rcases Bool.or_eq_true .. ▸ hcd with h | h
        · exact Or.inl (by exact_mod_cast of_decide_eq_true h)
        · exact Or.inr (of_decide_eq_true h)
      simp only [traceGo, hh, if_true] at he
      rcases ih (off + 1) (x.2.2.1 - 1) x.2.2.2 hrest e he hm with hb | hr
      · refine Or.inr ⟨(x.2.2.1, x.2.2.2), ?_, ?_, ?_⟩
        · rw [rangesOf_cons_some l ls x hh]
          exact List.mem_cons_self _ _
        · show x.2.2.1 ≤ e.cnt
          omega
        · show e.cnt < x.2.2.1 + x.2.2.2
          omega
      · obtain ⟨r, hrm, hrb⟩ := hr
        refine Or.inr ⟨r, ?_, hrb⟩
        rw [rangesOf_cons_some l ls x hh]
        exact List.mem_cons_of_mem _ hrm
    | none =>
      simp only [wfGo, hh] at hwf
      simp only [traceGo, hh, if_true] at he
      rw [rangesOf_cons_none l ls hh]
      by_cases hmin : l.head? = some '-'
      · rw [if_pos hmin] at he
        simp only [List.mem_cons] at he
        rcases he with rfl | he
        · simp at hm
        · rw [if_pos hmin] at hwf
          exact ih (off + 1) cnt k hwf e he hm
      · rw [if_neg hmin] at he
        rw [if_neg hmin] at hwf
        cases k with
        | zero => simp at hwf
        | succ k' =>
          simp only [List.mem_cons] at he
          rcases he with rfl | he
          · exact Or.inl ⟨show cnt < cnt + 1 by omega,
              show cnt + 1 ≤ cnt + (k' + 1) by omega⟩
          · rcases ih (off + 1) (cnt + 1) k' hwf e he hm with hb | hr
            · exact Or.inl ⟨by omega, by omega⟩
            · exact Or.inr hr

theorem trace_in_ranges (ls : List (List Char)) :
    ∀ (off cnt : Nat), wfGo ls none = true →
      ∀ e ∈ traceGo ls false off cnt, e.minus = false →
        ∃ r ∈ rangesOf ls, r.1 ≤ e.cnt ∧ e.cnt < r.1 + r.2 := by
  induction ls with
  | nil => intro off cnt _ e he; simp [traceGo] at he
  | cons l ls ih =>
    intro off cnt hwf e he hm
    cases hh : parseHunkHeader l with
    | some x =>
      simp only [wfGo, hh, Bool.and_eq_true] at hwf
      obtain ⟨⟨-, hcd⟩, hrest⟩ := hwf
      have hcd' : 1 ≤ x.2.2.1 ∨ x.2.2.2 = 0 := by
        rcases Bool.or_eq_true .. ▸ hcd with h | h
        · exact Or.inl (by exact_mod_cast of_decide_eq_true h)
        · exact Or.inr (of_decide_eq_true h)
      simp only [traceGo, hh, Bool.false_eq_true, if_false] at he
      rcases trace_in_ranges_started ls 0 (x.2.2.1 - 1) x.2.2.2 hrest e he hm
        with hb | hr
      · refine ⟨(x.2.2.1, x.2.2.2), ?_, ?_, ?_⟩
        · rw [rangesOf_cons_some l ls x hh]
          exact List.mem_cons_self _ _
        · show x.2.2.1 ≤ e.cnt
          omega
        · show e.cnt < x.2.2.1 + x.2.2.2
          omega
      · obtain ⟨r, hrm, hrb⟩ := hr
        refine ⟨r, ?_, hrb⟩
        rw [rangesOf_cons_some l ls x hh]
        exact List.mem_cons_of_mem _ hrm
    | none =>
      simp only [wfGo, hh] at hwf
      simp only [traceGo, hh, Bool.false_eq_true, if_false] at he
      rw [rangesOf_cons_none l ls hh]
      exact ih off cnt hwf e he hm

/-- C2: the hunk indexer agrees with its declarative reading — the
offset of the first non-deleted body line whose running new-file
counter equals `n`; when no non-deleted body line carries `n` (in
particular when `n` lies in a deleted-only region) the result is
`NotFound`; and on a well-formed patch, `NotFound` whenever no hunk's
declared new-file range covers `n`. -/
theorem C2_get_diff_index (patch : List Char) (n : Nat) :
    get_diff_index patch n = findOffset n (patchTrace patch) ∧
    ((∀ e ∈ patchTrace patch, e.minus = false → e.cnt ≠ n) →
      get_diff_index patch n = none) ∧
    (wellFormed patch = true →
      (∀ r ∈ hunkRanges patch, n < r.1 ∨ r.1 + r.2 ≤ n) →
      get_diff_index patch n = none) := by
  have heq : get_diff_index patch n = findOffset n (patchTrace patch) :=
    locateGo_eq_findOffset n (splitLines patch) false 0 0
  refine ⟨heq, ?_, ?_⟩
  · intro h
    rw [heq]
    exact findOffset_eq_none n (patchTrace patch) h
  · intro hwf hno
    rw [heq]
    refine findOffset_eq_none n (patchTrace patch) ?_
    intro e he hm hcnt
    obtain ⟨r, hrm, hr1, hr2⟩ :=
      trace_in_ranges (splitLines patch) 0 0 hwf e he hm
    rcases hno r hrm with h | h
    · omega
    · omega

theorem C2_get_diff_index_witness :
    wellFormed samplePatch = true ∧
    (∀ r ∈ hunkRanges samplePatch, 8 < r.1 ∨ r.1 + r.2 ≤ 8) ∧
    get_diff_index samplePatch 8 = none ∧
    get_diff_index samplePatch 1 = some 1 :=
  ⟨by decide, by decide,
    (C2_get_diff_index samplePatch 8).2.2 (by decide) (by decide),
    by decide⟩

/-! ### Commit reference recognizer -/

/-- C1: on the spec-8 message with own scope `gitmate-test-user/test`,
each verb keyword governs exactly the reference tokens up to the next
verb keyword, every reference token is also a mention, and the four
derived sets are as the spec states. -/
theorem C1_reference_sets :
    mentionedIssues sampleMsg sampleScope = ({98, 104, 1} : Finset Nat) ∧
    willFixIssues sampleMsg sampleScope = ({98} : Finset Nat) ∧
    closesIssues sampleMsg sampleScope = ({104} : Finset Nat) ∧
    willResolveIssues sampleMsg sampleScope = ({1} : Finset Nat) := by
  decide

theorem mention_mem (own : RepoScope) (toks : List (List Char)) :
    ∀ (gov : Option VerbFamily) (r : CommitReference),
      r ∈ refsOfTokens own toks gov →
      (⟨.MENTION, r.scope, r.number⟩ : CommitReference) ∈
        refsOfTokens own toks gov := by
  induction toks with
  | nil =>
    intro gov r hr
    simp [refsOfTokens] at hr
  | cons w ws ih =>
    intro gov r hr
    cases hv : verbOf w with
    | some fam =>
      simp only [refsOfTokens, hv] at hr ⊢
      exact ih (some fam) r hr
    | none =>
      cases hf : refOf own w with
      | none =>
        simp only [refsOfTokens, hv, hf] at hr ⊢
        exact ih gov r hr
      | some sn =>
        simp only [refsOfTokens, hv, hf, List.mem_cons,
          List.mem_append] at hr ⊢
        rcases hr with rfl | hg | hrest
        · exact Or.inl rfl
        · cases gov with
          | none => simp at hg
          | some fam =>
            simp only [List.mem_singleton] at hg
            subst hg
            exact Or.inl rfl
        · exact Or.inr (Or.inr (ih gov r hrest))

theorem issuesOf_subset_mentioned (v : Verb) (msg : List Char)
    (own : RepoScope) (n : Nat) (h : n ∈ issuesOf v msg own) :
    n ∈ mentionedIssues msg own := by
  simp only [issuesOf, mentionedIssues, List.mem_toFinset, List.mem_map,
    List.mem_filter, decide_eq_true_eq] at h ⊢
  obtain ⟨r, ⟨hmem, hcond⟩, hnum⟩ := h
  exact ⟨⟨.MENTION, r.scope, r.number⟩,
    ⟨mention_mem own (wordsOf msg) none r hmem, rfl, hcond.2⟩, hnum⟩

/-- C5: for every message, own scope and branch state, the derived
sets satisfy `mentioned ⊇ closes ⊇ will_close`, while `will_fix` and
`will_resolve` are verb-keyed subsets of `mentioned`. -/
theorem C5_reference_set_chain (msg : List Char) (own : RepoScope)
    (pending : Bool) (n : Nat) :
    (n ∈ closesIssues msg own → n ∈ mentionedIssues msg own) ∧
    (n ∈ willCloseIssues pending msg own → n ∈ closesIssues msg own) ∧
    (n ∈ willFixIssues msg own → n ∈ mentionedIssues msg own) ∧
    (n ∈ willResolveIssues msg own → n ∈ mentionedIssues msg own) := by
  refine ⟨fun h => issuesOf_subset_mentioned _ _ _ _ h, ?_,
    fun h => issuesOf_subset_mentioned _ _ _ _ h,
    fun h => issuesOf_subset_mentioned _ _ _ _ h⟩
  intro h
  cases pending with
  | true => simpa [willCloseIssues] using h
  | false => simp [willCloseIssues] at h

theorem C5_reference_set_chain_witness :
    (104 ∈ closesIssues sampleMsg sampleScope) ∧
    104 ∈ mentionedIssues sampleMsg sampleScope :=
  ⟨by decide,
    (C5_reference_set_chain sampleMsg sampleScope true 104).1 (by decide)⟩

theorem wordsAux_chars (cs : List Char) :
    ∀ (acc w : List Char), w ∈ wordsAux cs acc → ∀ c ∈ w, c ∈ cs ∨ c ∈ acc := by
  induction cs with
  | nil =>
    intro acc w hw c hc
    simp only [wordsAux] at hw
    by_cases ha : acc = []
    · simp [ha] at hw
    · rw [if_neg ha] at hw
      simp only [List.mem_singleton] at hw
      subst hw
      exact Or.inr (List.mem_reverse.mp hc)
  | cons x cs ih =>
    intro acc w hw c hc
    simp only [wordsAux] at hw
    by_cases hx : isWsChar x = true
    · rw [if_pos hx] at hw
      by_cases ha : acc = []
      · rw [if_pos ha] at hw
        rcases ih [] w hw c hc with h | h
        · exact Or.inl (List.mem_cons_of_mem x h)
        · simp at h
      · rw [if_neg ha] at hw
        simp only [List.mem_cons] at hw
        rcases hw with rfl | hw
        · exact Or.inr (List.mem_reverse.mp hc)
        · rcases ih [] w hw c hc with h | h
          · exact Or.inl (List.mem_cons_of_mem x h)
          · simp at h
    · rw [if_neg hx] at hw
      rcases ih (x :: acc) w hw c hc with h | h
      · exact Or.inl (List.mem_cons_of_mem x h)
      · rcases List.mem_cons.mp h with rfl | h
        · exact Or.inl (List.mem_cons_self c cs)
        · exact Or.inr h

theorem refOf_none_no_hash (own : RepoScope) (w : List Char)
    (h : ∀ c ∈ w, c ≠ '#') : refOf own w = none := by
  have hd : w.dropWhile (fun c => c != '#') = [] := by
    rw [List.dropWhile_eq_nil_iff]
    intro c hc
    simpa using h c hc
  simp only [refOf, hd]

theorem refsOfTokens_eq_nil (own : RepoScope) (ws : List (List Char))
    (h : ∀ w ∈ ws, refOf own w = none) :
    ∀ gov, refsOfTokens own ws gov = [] := by
  induction ws with
  | nil => intro gov; rfl
  | cons w ws ih =>
    intro gov
    have hw := h w (List.mem_cons_self w ws)
    have hrest : ∀ x ∈ ws, refOf own x = none :=
      fun x hx => h x (List.mem_cons_of_mem w hx)
    cases hv : verbOf w with
    | some fam =>
      simp only [refsOfTokens, hv]
      exact ih hrest (some fam)
    | none =>
      simp only [refsOfTokens, hv, hw]
      exact ih hrest gov

theorem parseRefs_nil_of_no_hash (msg : List Char) (own : RepoScope)
    (h : '#' ∉ msg) : parseRefs msg own = [] := by
  apply refsOfTokens_eq_nil
  intro w hw
  apply refOf_none_no_hash
  intro c hc heq
  subst heq
  rcases wordsAux_chars msg [] w hw '#' hc with hm | hm
  · exact h hm
  · simp at hm

/-- C9: parsing is total and never fails; a message without a `#`
character yields no reference and every derived set empty, whatever
verb keywords it contains; and `#` tokens not followed by digits (as
in `sampleMalformed`) are not recognized as references. -/
theorem C9_parse_total (msg : List Char) (own : RepoScope)
    (pending : Bool) (h : '#' ∉ msg) :
    parseRefs msg own = [] ∧
    mentionedIssues msg own = ∅ ∧ closesIssues msg own = ∅ ∧
    willFixIssues msg own = ∅ ∧ willResolveIssues msg own = ∅ ∧
    willCloseIssues pending msg own = ∅ ∧
    parseRefs sampleMalformed own = [] := by
  have hp := parseRefs_nil_of_no_hash msg own h
  have hmal : parseRefs sampleMalformed own = [] := by
    apply refsOfTokens_eq_nil
    intro w hw
    have hwords : wordsOf sampleMalformed =
        [("closes").data, ("#").data, ("and").data,
          ("fixes").data, ("#abc").data] := by decide
    rw [wordsOf] at hw
    rw [show wordsAux sampleMalformed [] = wordsOf sampleMalformed from rfl,
      hwords] at hw
    fin_cases hw <;> rfl
  refine ⟨hp, ?_, ?_, ?_, ?_, ?_, hmal⟩
  · simp [mentionedIssues, issuesOf, parseRefs] at hp ⊢
    simp [hp]
  · simp [closesIssues, issuesOf, parseRefs] at hp ⊢
    simp [hp]
  · simp [willFixIssues, issuesOf, parseRefs] at hp ⊢
    simp [hp]
  · simp [willResolveIssues, issuesOf, parseRefs] at hp ⊢
    simp [hp]
  · cases pending with
    | true =>
      simp only [willCloseIssues, if_true]
      simp [closesIssues, issuesOf, parseRefs] at hp ⊢
      simp [hp]
    | false => simp [willCloseIssues]

theorem C9_parse_total_witness :
    ('#' ∉ ("Close this and fix that please").data) ∧
    (parseRefs (("Close this and fix that please").data) sampleScope = [] ∧
      mentionedIssues (("Close this and fix that please").data)
        sampleScope = ∅ ∧
      closesIssues (("Close this and fix that please").data)
        sampleScope = ∅ ∧
      willFixIssues (("Close this and fix that please").data)
        sampleScope = ∅ ∧
      willResolveIssues (("Close this and fix that please").data)
        sampleScope = ∅ ∧
      willCloseIssues true (("Close this and fix that please").data)
        sampleScope = ∅ ∧
      parseRefs sampleMalformed sampleScope = []) :=
  ⟨by decide,
    C9_parse_total (("Close this and fix that please").data) sampleScope
      true (by decide)⟩

end Igitt
